import Mathlib

/-!
Shallow embedding of the real-time product-catalog core of the checkout
backend (two variants: `server.js` and the unnamed earlier variant).
The catalog is a JavaScript object keyed by product name; we model it as an
association list in insertion order, since `Object.entries` iterates string
keys in insertion order, assignment to an existing key keeps its position,
assignment to a fresh key appends, and `delete` removes it.
-/

namespace Backend

/-- A product record `{ weight, price, freshness }` as stored in `products`.
JS numbers are modelled as rationals. -/
structure Product where
  weight : ℚ
  price : ℚ
  freshness : String
deriving DecidableEq

/-- The `products` object: name-keyed records, in insertion order. -/
abbrev Catalog := List (String × Product)

/-- `products[name]`: first (only) binding of `name`, if any. -/
def catGet : Catalog → String → Option Product
  | [], _ => none
  | (m, q) :: rest, n => if m = n then some q else catGet rest n

/-- `products[name] = p`: overwrite in place if the key exists, else append. -/
def catSet : Catalog → String → Product → Catalog
  | [], n, p => [(n, p)]
  | (m, q) :: rest, n, p =>
      if m = n then (n, p) :: rest else (m, q) :: catSet rest n p

/-- `delete products[name]`. -/
def catDel (c : Catalog) (n : String) : Catalog :=
  c.filter (fun e => e.1 ≠ n)

/-- One element of the valid view: a record augmented with its name. -/
structure ViewEntry where
  name : String
  weight : ℚ
  price : ℚ
  freshness : String
deriving DecidableEq

/-- `getCurrentProducts()`: filter the catalog to `weight >= 2 && price >= 0`
and tag each record with its name, in catalog (insertion) order. -/
def getCurrentProducts (c : Catalog) : List ViewEntry :=
  (c.filter (fun e => 2 ≤ e.2.weight ∧ 0 ≤ e.2.price)).map
    (fun e => ⟨e.1, e.2.weight, e.2.price, e.2.freshness⟩)

/-- `weightThreshold = 5` grams. -/
def weightThreshold : ℚ := 5

/-- The JSON body of `POST /product`; each field may be absent. -/
structure UpsertRequest where
  name : Option String
  weight : Option ℚ
  price : Option ℚ
  freshness : Option String
deriving DecidableEq

/-- JS truthiness test `!x` on an optional string: true when the field is
absent (`undefined`) or the empty string. -/
def falsyStr : Option String → Bool
  | none => true
  | some s => s == ""

/-- Outcome of the `POST /product` handler. -/
inductive UpsertOutcome
  | missingFields
  | invalidValue
  | created
  | updated
  | unchanged
deriving DecidableEq

/-- HTTP status and message the handler responds with (`server.js` texts). -/
def upsertHttp : UpsertOutcome → Nat × String
  | .missingFields => (400, "Missing required fields")
  | .invalidValue => (400, "Invalid product (negative weight or price)")
  | .created => (200, "Product added successfully")
  | .updated => (200, "Product updated successfully")
  | .unchanged => (200, "No significant change in weight")

/-- The `server.js` `POST /product` handler: outcome, catalog afterwards, and
whether `broadcastUpdate()` was called. The field-presence check is
`!name || weight === undefined || price === undefined || !freshness`. -/
def postProduct (c : Catalog) (r : UpsertRequest) : UpsertOutcome × Catalog × Bool :=
  if falsyStr r.name || r.weight.isNone || r.price.isNone || falsyStr r.freshness then
    (.missingFields, c, false)
  else
    let name := r.name.getD ""
    let weight := r.weight.getD 0
    let price := r.price.getD 0
    let freshness := r.freshness.getD ""
    if weight < 0 ∨ price < 0 then
      (.invalidValue, c, false)
    else
      match catGet c name with
      | some prev =>
          if |weight - prev.weight| > weightThreshold then
            (.updated, catSet c name ⟨weight, price, freshness⟩, true)
          else
            (.unchanged, c, false)
      | none =>
          (.created, catSet c name ⟨weight, price, freshness⟩, true)

/-- The unnamed variant's `POST /product` handler: identical except that it
has no negative weight/price check. -/
def postProductV2 (c : Catalog) (r : UpsertRequest) : UpsertOutcome × Catalog × Bool :=
  if falsyStr r.name || r.weight.isNone || r.price.isNone || falsyStr r.freshness then
    (.missingFields, c, false)
  else
    let name := r.name.getD ""
    let weight := r.weight.getD 0
    let price := r.price.getD 0
    let freshness := r.freshness.getD ""
    match catGet c name with
    | some prev =>
        if |weight - prev.weight| > weightThreshold then
          (.updated, catSet c name ⟨weight, price, freshness⟩, true)
        else
          (.unchanged, c, false)
    | none =>
        (.created, catSet c name ⟨weight, price, freshness⟩, true)

/-- Outcome of the `DELETE /product/:name` handler. -/
inductive RemoveOutcome
  | deleted
  | notFound
deriving DecidableEq

/-- HTTP status of the delete handler. -/
def removeStatus : RemoveOutcome → Nat
  | .deleted => 200
  | .notFound => 404

/-- The `DELETE /product/:name` handler (identical in both variants):
outcome, catalog afterwards, and whether `broadcastUpdate()` was called. -/
def deleteProduct (c : Catalog) (n : String) : RemoveOutcome × Catalog × Bool :=
  match catGet c n with
  | some _ => (.deleted, catDel c n, true)
  | none => (.notFound, c, false)

/-- An SSE client (`res` object pushed onto `clients`): identified by its
connection handle, modelled as a numeric id. `broken` models a channel whose
far end is already gone, so writes to it are dropped; in Node, `res.write`
on a closed response does not throw synchronously, it fails silently. -/
structure Channel where
  id : Nat
  broken : Bool
deriving DecidableEq

/-- `clients = clients.filter(client => client !== res)`. -/
def unregister (cs : List Channel) (ch : Channel) : List Channel :=
  cs.filter (fun c => c ≠ ch)

/-- One broadcast payload: the serialized valid view. -/
abbrev Payload := List ViewEntry

/-- `client.write(...)`: append the payload to the channel's delivery log,
unless the channel is broken (failed write, dropped silently). -/
def writeTo (logs : Nat → List Payload) (ch : Channel) (pl : Payload) :
    Nat → List Payload :=
  if ch.broken then logs
  else fun i => if i = ch.id then logs i ++ [pl] else logs i

/-- Whole-system state: the catalog, the `clients` array, the list of every
broadcast payload emitted so far (oldest first), and each channel's
delivery log. -/
structure SysState where
  products : Catalog
  clients : List Channel
  history : List Payload
  logs : Nat → List Payload

/-- `broadcastUpdate()`: serialize `getCurrentProducts()` once and write the
identical payload to every registered client; the registry is not touched. -/
def broadcastUpdate (s : SysState) : SysState :=
  let pl := getCurrentProducts s.products
  { s with
    history := s.history ++ [pl],
    logs := s.clients.foldl (fun lg ch => writeTo lg ch pl) s.logs }

/-- External events driving the core. -/
inductive Event
  | connect (ch : Channel)
  | disconnect (ch : Channel)
  | post (r : UpsertRequest)
  | remove (n : String)
deriving DecidableEq

/-- One event-loop step. `connect` is `GET /stream-products`: push onto
`clients`, then immediately write the current view to the new channel.
`disconnect` is the `close` handler. `post`/`remove` run the handler and, if
it called `broadcastUpdate()`, broadcast from the mutated state. -/
def step (s : SysState) (e : Event) : SysState :=
  match e with
  | .connect ch =>
      let s1 := { s with clients := s.clients ++ [ch] }
      { s1 with logs := writeTo s1.logs ch (getCurrentProducts s.products) }
  | .disconnect ch => { s with clients := unregister s.clients ch }
  | .post r =>
      let res := postProduct s.products r
      let s2 := { s with products := res.2.1 }
      if res.2.2 then broadcastUpdate s2 else s2
  | .remove n =>
      let res := deleteProduct s.products n
      let s2 := { s with products := res.2.1 }
      if res.2.2 then broadcastUpdate s2 else s2

/-- Run a list of events from a given state. -/
def runFrom (s : SysState) (es : List Event) : SysState :=
  es.foldl step s

/-- Process start: empty catalog, no clients, nothing broadcast. -/
def initState : SysState :=
  { products := [], clients := [], history := [], logs := fun _ => [] }

/-- Run a list of events from process start. -/
def run (es : List Event) : SysState :=
  runFrom initState es

/-! ### Helper lemmas about the catalog -/

theorem catGet_catSet_self (c : Catalog) (n : String) (p : Product) :
    catGet (catSet c n p) n = some p := by
  induction c with
  | nil => simp [catSet, catGet]
  | cons e rest ih =>
      by_cases h : e.1 = n
      · simp [catSet, h, catGet]
      · simp [catSet, h, catGet, ih]

theorem catGet_none_iff (c : Catalog) (n : String) :
    catGet c n = none ↔ ∀ e ∈ c, e.1 ≠ n := by
  induction c with
  | nil => simp [catGet]
  | cons e rest ih =>
      by_cases h : e.1 = n
      · simp [catGet, h]
      · simp [catGet, h, ih]

theorem catSet_absent (c : Catalog) (n : String) (p : Product)
    (h : catGet c n = none) : catSet c n p = c ++ [(n, p)] := by
  induction c with
  | nil => simp [catSet]
  | cons e rest ih =>
      rw [catGet_none_iff] at h
      have h1 : e.1 ≠ n := h e (by simp)
      have h2 : catGet rest n = none := by
        rw [catGet_none_iff]
        exact fun x hx => h x (by simp [hx])
      simp [catSet, h1, ih h2]

theorem getCurrentProducts_append (c d : Catalog) :
    getCurrentProducts (c ++ d) = getCurrentProducts c ++ getCurrentProducts d := by
  simp [getCurrentProducts]

/-- Bundle the guard computation of both post handlers. -/
theorem guard_false_of_present (n f : String) (w p : ℚ)
    (hn : n ≠ "") (hf : f ≠ "") :
    (falsyStr (some n) || (some w).isNone || (some p).isNone || falsyStr (some f))
      = false := by
  simp [falsyStr, hn, hf]

/-! ### C1 -/

/-- C1: an upsert to an existing name whose weight differs from the stored
weight by at most 5 grams leaves the stored record (weight, price and
freshness) untouched, returns the Unchanged outcome, and triggers no
broadcast — in both variants of the handler. -/
theorem upsert_small_delta_noop (c : Catalog) (n f : String) (w p : ℚ)
    (prev : Product)
    (hn : n ≠ "") (hf : f ≠ "") (hw : 0 ≤ w) (hp : 0 ≤ p)
    (hprev : catGet c n = some prev)
    (hdelta : |w - prev.weight| ≤ 5) :
    postProduct c ⟨some n, some w, some p, some f⟩ = (.unchanged, c, false) ∧
    postProductV2 c ⟨some n, some w, some p, some f⟩ = (.unchanged, c, false) := by
  have hguard := guard_false_of_present n f w p hn hf
  have hneg : ¬(w < 0 ∨ p < 0) := by
    push_neg
    exact ⟨hw, hp⟩
  have hth : ¬(|w - prev.weight| > weightThreshold) := by
    rw [weightThreshold]
    exact not_lt.mpr hdelta
  constructor
  · simp only [postProduct, hguard, Bool.false_eq_true, if_false, Option.getD_some,
      if_neg hneg, hprev, if_neg hth]
  · simp only [postProductV2, hguard, Bool.false_eq_true, if_false, Option.getD_some,
      hprev, if_neg hth]

/-- C1 witness at a concrete catalog and request. -/
theorem upsert_small_delta_noop_witness :
    postProduct [("apple", ⟨10, 2, "fresh"⟩)]
        ⟨some "apple", some 12, some 7, some "stale"⟩
      = (.unchanged, [("apple", ⟨10, 2, "fresh"⟩)], false) :=
  (upsert_small_delta_noop [("apple", ⟨10, 2, "fresh"⟩)] "apple" "stale" 12 7
    ⟨10, 2, "fresh"⟩ (by decide) (by decide) (by norm_num) (by norm_num)
    (by simp [catGet]) (by norm_num)).1

/-! ### C2 -/

/-- C2: an upsert to an existing name whose weight differs from the stored
weight by more than 5 grams overwrites the record with all three submitted
values, returns the Updated outcome, and the event step emits exactly one
broadcast whose payload is the valid view of the catalog after the
replacement — in both variants of the handler. -/
theorem upsert_large_delta_replaces (c : Catalog) (n f : String) (w p : ℚ)
    (prev : Product)
    (hn : n ≠ "") (hf : f ≠ "") (hw : 0 ≤ w) (hp : 0 ≤ p)
    (hprev : catGet c n = some prev)
    (hdelta : |w - prev.weight| > 5) :
    postProduct c ⟨some n, some w, some p, some f⟩
      = (.updated, catSet c n ⟨w, p, f⟩, true) ∧
    catGet (catSet c n ⟨w, p, f⟩) n = some ⟨w, p, f⟩ ∧
    (∀ s : SysState, s.products = c →
      (step s (.post ⟨some n, some w, some p, some f⟩)).history
        = s.history ++ [getCurrentProducts (catSet c n ⟨w, p, f⟩)]) ∧
    postProductV2 c ⟨some n, some w, some p, some f⟩
      = (.updated, catSet c n ⟨w, p, f⟩, true) := by
  have hguard := guard_false_of_present n f w p hn hf
  have hneg : ¬(w < 0 ∨ p < 0) := by
    push_neg
    exact ⟨hw, hp⟩
  have hth : |w - prev.weight| > weightThreshold := by
    rw [weightThreshold]
    exact hdelta
  have h1 : postProduct c ⟨some n, some w, some p, some f⟩
      = (.updated, catSet c n ⟨w, p, f⟩, true) := by
    simp only [postProduct, hguard, Bool.false_eq_true, if_false, Option.getD_some,
      if_neg hneg, hprev, if_pos hth]
  refine ⟨h1, catGet_catSet_self c n ⟨w, p, f⟩, ?_, ?_⟩
  · intro s hs
    have h2 : postProduct s.products ⟨some n, some w, some p, some f⟩
        = (.updated, catSet c n ⟨w, p, f⟩, true) := by
      rw [hs]
      exact h1
    simp [step, h2, broadcastUpdate]
  · simp only [postProductV2, hguard, Bool.false_eq_true, if_false, Option.getD_some,
      hprev, if_pos hth]

/-- C2 witness at a concrete catalog and request. -/
theorem upsert_large_delta_replaces_witness :
    postProduct [("apple", ⟨10, 2, "fresh"⟩)]
        ⟨some "apple", some 20, some 3, some "fresh"⟩
      = (.updated, [("apple", ⟨20, 3, "fresh"⟩)], true) := by
  have h := (upsert_large_delta_replaces [("apple", ⟨10, 2, "fresh"⟩)]
    "apple" "fresh" 20 3 ⟨10, 2, "fresh"⟩ (by decide) (by decide)
    (by norm_num) (by norm_num) (by simp [catGet]) (by norm_num)).1
  simpa [catSet] using h

/-! ### C3 -/

/-- Every element of the valid view names some pair of the catalog. -/
theorem mem_view_names_catalog (c : Catalog) (e : ViewEntry)
    (h : e ∈ getCurrentProducts c) : ∃ pr, (e.name, pr) ∈ c := by
  simp only [getCurrentProducts, List.mem_map, List.mem_filter] at h
  obtain ⟨x, ⟨hx, _⟩, hfx⟩ := h
  refine ⟨x.2, ?_⟩
  rw [← hfx]
  exact hx

/-- C3: a valid upsert of a name not in the catalog appends exactly one
entry, keyed by the name and holding the submitted values, leaving every
other entry unchanged; the outcome is Created, the step emits one broadcast
of the resulting valid view, and the new entry is in that payload exactly
when it passes the valid-view filter `weight >= 2 && price >= 0` — in both
variants of the handler. -/
theorem upsert_new_name_creates (c : Catalog) (n f : String) (w p : ℚ)
    (hn : n ≠ "") (hf : f ≠ "") (hw : 0 ≤ w) (hp : 0 ≤ p)
    (habs : catGet c n = none) :
    postProduct c ⟨some n, some w, some p, some f⟩
      = (.created, c ++ [(n, ⟨w, p, f⟩)], true) ∧
    (∀ s : SysState, s.products = c →
      (step s (.post ⟨some n, some w, some p, some f⟩)).history
        = s.history ++ [getCurrentProducts (c ++ [(n, ⟨w, p, f⟩)])]) ∧
    ((⟨n, w, p, f⟩ : ViewEntry) ∈ getCurrentProducts (c ++ [(n, ⟨w, p, f⟩)])
      ↔ (2 ≤ w ∧ 0 ≤ p)) ∧
    postProductV2 c ⟨some n, some w, some p, some f⟩
      = (.created, c ++ [(n, ⟨w, p, f⟩)], true) := by
  have hguard := guard_false_of_present n f w p hn hf
  have hneg : ¬(w < 0 ∨ p < 0) := by
    push_neg
    exact ⟨hw, hp⟩
  have hset := catSet_absent c n ⟨w, p, f⟩ habs
  have h1 : postProduct c ⟨some n, some w, some p, some f⟩
      = (.created, c ++ [(n, ⟨w, p, f⟩)], true) := by
    simp only [postProduct, hguard, Bool.false_eq_true, if_false, Option.getD_some,
      if_neg hneg, habs, hset]
  refine ⟨h1, ?_, ?_, ?_⟩
  · intro s hs
    have h2 : postProduct s.products ⟨some n, some w, some p, some f⟩
        = (.created, c ++ [(n, ⟨w, p, f⟩)], true) := by
      rw [hs]
      exact h1
    simp [step, h2, broadcastUpdate]
  · rw [getCurrentProducts_append]
    constructor
    · intro hmem
      rcases List.mem_append.mp hmem with hin | hin
      · exfalso
        obtain ⟨pr, hpr⟩ := mem_view_names_catalog c ⟨n, w, p, f⟩ hin
        rw [catGet_none_iff] at habs
        exact habs (n, pr) hpr rfl
      · simp only [getCurrentProducts, List.mem_map, List.mem_filter] at hin
        obtain ⟨x, ⟨hx, hq⟩, _⟩ := hin
        simp only [List.mem_singleton] at hx
        subst hx
        simpa using hq
    · intro hq
      refine List.mem_append.mpr (Or.inr ?_)
      simp [getCurrentProducts, hq.1, hq.2]
  · simp only [postProductV2, hguard, Bool.false_eq_true, if_false, Option.getD_some,
      habs, hset]

/-- C3 witness at a concrete request on the empty catalog. -/
theorem upsert_new_name_creates_witness :
    postProduct [] ⟨some "apple", some 10, some 3, some "fresh"⟩
      = (.created, [("apple", ⟨10, 3, "fresh"⟩)], true) := by
  have h := (upsert_new_name_creates [] "apple" "fresh" 10 3 (by decide) (by decide)
    (by norm_num) (by norm_num) (by simp [catGet])).1
  simpa using h

/-! ### C4 -/

/-- C4: after any sequence of operations from the empty catalog, the valid
view contains no entry with weight below 2 or negative price, and a catalog
entry appears in the view (augmented with its name) exactly when it passes
the `weight >= 2 && price >= 0` filter. -/
theorem validView_filter_invariant (es : List Event) :
    (∀ e ∈ getCurrentProducts (run es).products, 2 ≤ e.weight ∧ 0 ≤ e.price) ∧
    (∀ n pr, (n, pr) ∈ (run es).products →
      ((⟨n, pr.weight, pr.price, pr.freshness⟩ : ViewEntry)
          ∈ getCurrentProducts (run es).products
        ↔ (2 ≤ pr.weight ∧ 0 ≤ pr.price))) := by
  constructor
  · intro e he
    simp only [getCurrentProducts, List.mem_map, List.mem_filter] at he
    obtain ⟨x, ⟨_, hq⟩, hfx⟩ := he
    rw [← hfx]
    simpa using hq
  · intro n pr hmem
    constructor
    · intro hin
      simp only [getCurrentProducts, List.mem_map, List.mem_filter] at hin
      obtain ⟨x, ⟨_, hq⟩, hfx⟩ := hin
      have hw : x.2.weight = pr.weight := congrArg ViewEntry.weight hfx
      have hp : x.2.price = pr.price := congrArg ViewEntry.price hfx
      rw [← hw, ← hp]
      simpa using hq
    · intro hq
      simp only [getCurrentProducts, List.mem_map, List.mem_filter]
      exact ⟨(n, pr), ⟨hmem, by simpa using hq⟩, rfl⟩

/-- C4 witness: a concrete reachable state and catalog entry. -/
theorem validView_filter_invariant_witness :
    (⟨"apple", 10, 3, "fresh"⟩ : ViewEntry)
      ∈ getCurrentProducts (run [Event.post ⟨some "apple", some 10, some 3, some "fresh"⟩]).products :=
  ((validView_filter_invariant [Event.post ⟨some "apple", some 10, some 3, some "fresh"⟩]).2
    "apple" ⟨10, 3, "fresh"⟩ (by decide)).mpr (by norm_num)

/-! ### C5 (the unnamed variant has no negative-value check) -/

/-- The unnamed variant's handler can never produce the InvalidValue
outcome: it has no negative weight/price branch. -/
theorem postProductV2_never_invalid (c : Catalog) (r : UpsertRequest) :
    (postProductV2 c r).1 ≠ UpsertOutcome.invalidValue := by
  unfold postProductV2
  split
  · simp
  · dsimp only
    split
    · split <;> simp
    · simp

/-- C5 counterexample: in the unnamed variant, an upsert with all fields
present and a negative weight is not rejected as InvalidValue: it is
accepted as Created, mutates the catalog, and triggers a broadcast. -/
theorem negative_value_counterexample :
    postProductV2 [] ⟨some "x", some (-1), some 1, some "f"⟩
      = (.created, [("x", ⟨-1, 1, "f"⟩)], true) := by
  rfl

/-- C5 amended: in the `server.js` variant a present-field upsert with
negative weight or price fails with InvalidValue (HTTP 400), the catalog is
unchanged and no broadcast occurs; the unnamed variant omits this check and
never yields InvalidValue. -/
theorem negative_value_rejected (c : Catalog) (n f : String) (w p : ℚ)
    (hn : n ≠ "") (hf : f ≠ "")
    (hneg : w < 0 ∨ p < 0) :
    postProduct c ⟨some n, some w, some p, some f⟩ = (.invalidValue, c, false) ∧
    upsertHttp .invalidValue = (400, "Invalid product (negative weight or price)") ∧
    (∀ s : SysState, s.products = c →
      step s (.post ⟨some n, some w, some p, some f⟩) = s) ∧
    (postProductV2 c ⟨some n, some w, some p, some f⟩).1
      ≠ UpsertOutcome.invalidValue := by
  have hguard := guard_false_of_present n f w p hn hf
  have h1 : postProduct c ⟨some n, some w, some p, some f⟩
      = (.invalidValue, c, false) := by
    simp only [postProduct, hguard, Bool.false_eq_true, if_false, Option.getD_some,
      if_pos hneg]
  refine ⟨h1, rfl, ?_, postProductV2_never_invalid c _⟩
  intro s hs
  have h2 : postProduct s.products ⟨some n, some w, some p, some f⟩
      = (.invalidValue, c, false) := by
    rw [hs]
    exact h1
  simp only [step, h2]
  rw [if_neg Bool.false_ne_true, ← hs]

/-- C5 amended-claim witness at a concrete request. -/
theorem negative_value_rejected_witness :
    postProduct [] ⟨some "x", some (-1), some 1, some "f"⟩
      = (.invalidValue, [], false) :=
  (negative_value_rejected [] "x" "f" (-1) 1 (by decide) (by decide)
    (Or.inl (by norm_num))).1

/-! ### C6 -/

/-- C6: deleting a present name removes exactly that entry (every entry with
another name is untouched), answers Deleted / HTTP 200, and broadcasts the
resulting valid view, which no longer mentions the name; deleting an absent
name answers NotFound / HTTP 404, leaves the whole state unchanged, and
broadcasts nothing. -/
theorem remove_spec (c : Catalog) (n : String) :
    (∀ pr, catGet c n = some pr →
      deleteProduct c n = (.deleted, catDel c n, true) ∧
      removeStatus .deleted = 200 ∧
      (∀ q, (n, q) ∉ catDel c n) ∧
      (∀ m q, m ≠ n → ((m, q) ∈ catDel c n ↔ (m, q) ∈ c)) ∧
      (∀ s : SysState, s.products = c →
        (step s (.remove n)).history
          = s.history ++ [getCurrentProducts (catDel c n)]) ∧
      (∀ e ∈ getCurrentProducts (catDel c n), e.name ≠ n)) ∧
    (catGet c n = none →
      deleteProduct c n = (.notFound, c, false) ∧
      removeStatus .notFound = 404 ∧
      (∀ s : SysState, s.products = c → step s (.remove n) = s)) := by
  constructor
  · intro pr hpr
    have h1 : deleteProduct c n = (.deleted, catDel c n, true) := by
      simp [deleteProduct, hpr]
    refine ⟨h1, rfl, ?_, ?_, ?_, ?_⟩
    · intro q
      simp [catDel]
    · intro m q hm
      simp [catDel, hm]
    · intro s hs
      have h2 : deleteProduct s.products n = (.deleted, catDel c n, true) := by
        rw [hs]
        exact h1
      simp [step, h2, broadcastUpdate]
    · intro e he
      obtain ⟨q, hq⟩ := mem_view_names_catalog _ e he
      simp only [catDel, List.mem_filter, decide_eq_true_eq] at hq
      exact hq.2
  · intro habs
    have h1 : deleteProduct c n = (.notFound, c, false) := by
      simp [deleteProduct, habs]
    refine ⟨h1, rfl, ?_⟩
    intro s hs
    have h2 : deleteProduct s.products n = (.notFound, c, false) := by
      rw [hs]
      exact h1
    simp only [step, h2]
    rw [if_neg Bool.false_ne_true, ← hs]

/-- C6 witness: deleting the only product of a concrete catalog. -/
theorem remove_spec_witness :
    deleteProduct [("apple", ⟨10, 3, "fresh"⟩)] "apple"
      = (.deleted, [], true) := by
  have h := ((remove_spec [("apple", ⟨10, 3, "fresh"⟩)] "apple").1
    ⟨10, 3, "fresh"⟩ (by simp [catGet])).1
  simpa [catDel] using h

/-! ### C9 -/

/-- C9: removing a channel from the `clients` array is idempotent, and
removing a channel that is not registered leaves the array unchanged. -/
theorem unregister_idempotent (cs : List Channel) (ch : Channel) :
    unregister (unregister cs ch) ch = unregister cs ch ∧
    (ch ∉ cs → unregister cs ch = cs) := by
  constructor
  · simp [unregister, List.filter_filter]
  · intro h
    rw [unregister, List.filter_eq_self]
    intro a ha
    simp only [decide_eq_true_eq]
    exact fun he => h (he ▸ ha)

/-- C9 witness: unregistering an absent channel from a concrete registry. -/
theorem unregister_idempotent_witness :
    unregister [⟨1, false⟩] ⟨2, false⟩ = [⟨1, false⟩] :=
  (unregister_idempotent [⟨1, false⟩] ⟨2, false⟩).2 (by decide)

/-! ### C10 -/

/-- C10: a request whose name or freshness is the empty string is rejected
by the presence check (`!name || ... || !freshness`) as a 400
"Missing required fields" request-format error in both variants, with no
state change and no broadcast; meanwhile weight 0 and price 0 pass the
presence check (they are only compared against `undefined`), so such a
request proceeds to the store (Created when the name is new). -/
theorem falsy_field_rejected (c : Catalog) (r : UpsertRequest)
    (h : r.name = some "" ∨ r.freshness = some "") :
    postProduct c r = (.missingFields, c, false) ∧
    postProductV2 c r = (.missingFields, c, false) ∧
    upsertHttp .missingFields = (400, "Missing required fields") ∧
    (∀ s : SysState, s.products = c → step s (.post r) = s) ∧
    (∀ n f, n ≠ "" → f ≠ "" → catGet c n = none →
      (postProduct c ⟨some n, some 0, some 0, some f⟩).1 = .created ∧
      (postProductV2 c ⟨some n, some 0, some 0, some f⟩).1 = .created) := by
  have hguard : (falsyStr r.name || r.weight.isNone || r.price.isNone
      || falsyStr r.freshness) = true := by
    rcases h with h | h <;> simp [h, falsyStr]
  have h1 : postProduct c r = (.missingFields, c, false) := by
    simp only [postProduct, hguard, if_true]
  refine ⟨h1, ?_, rfl, ?_, ?_⟩
  · simp only [postProductV2, hguard, if_true]
  · intro s hs
    have h2 : postProduct s.products r = (.missingFields, c, false) := by
      rw [hs]
      exact h1
    simp only [step, h2]
    rw [if_neg Bool.false_ne_true, ← hs]
  · intro n f hn hf habs
    have hg := guard_false_of_present n f 0 0 hn hf
    have hneg : ¬((0 : ℚ) < 0 ∨ (0 : ℚ) < 0) := by norm_num
    constructor
    · simp only [postProduct, hg, Bool.false_eq_true, if_false, Option.getD_some,
        if_neg hneg, habs]
    · simp only [postProductV2, hg, Bool.false_eq_true, if_false, Option.getD_some,
        habs]

/-- C10 witness: empty freshness on a concrete request is rejected. -/
theorem falsy_field_rejected_witness :
    postProduct [] ⟨some "apple", some 5, some 1, some ""⟩
      = (.missingFields, [], false) :=
  (falsy_field_rejected [] ⟨some "apple", some 5, some 1, some ""⟩
    (Or.inr rfl)).1

/-! ### Broadcast fanout lemmas (for C7 and C8) -/

/-- Pointwise effect of the broadcast fold: slot `i` of the delivery logs
receives one copy of the payload per registered unbroken channel with id
`i`; broken channels contribute nothing and stop nothing. -/
theorem foldWrite_apply (cs : List Channel) (lg : Nat → List Payload)
    (pl : Payload) (i : Nat) :
    (cs.foldl (fun acc c => writeTo acc c pl) lg) i
      = lg i ++ List.replicate (cs.countP (fun c => c.id == i && !c.broken)) pl := by
  induction cs generalizing lg with
  | nil => simp
  | cons c rest ih =>
      rw [List.foldl_cons, ih]
      by_cases hb : c.broken
      · simp [writeTo, hb, List.countP_cons]
      · by_cases hi : c.id = i
        · simp [writeTo, hb, hi, List.countP_cons, List.append_assoc]
          rw [List.replicate_succ]
        · simp [writeTo, hb, hi, List.countP_cons]
          omega

/-- If the only channel carrying a given id is `ch` and `ch` is healthy,
exactly one delivery lands in that slot. -/
theorem countP_of_filter_single (cs : List Channel) (ch : Channel)
    (hfilt : cs.filter (fun c => c.id == ch.id) = [ch])
    (hok : ch.broken = false) :
    cs.countP (fun c => c.id == ch.id && !c.broken) = 1 := by
  induction cs with
  | nil => simp at hfilt
  | cons c rest ih =>
      by_cases hi : (c.id == ch.id) = true
      · rw [List.filter_cons, if_pos hi] at hfilt
        have hc : c = ch := (List.cons_eq_cons.mp hfilt).1
        have hrest : rest.filter (fun c => c.id == ch.id) = [] :=
          (List.cons_eq_cons.mp hfilt).2
        have hrest0 : rest.countP (fun c => c.id == ch.id && !c.broken) = 0 := by
          rw [List.countP_eq_zero]
          intro x hx
          have hxid : ¬(x.id == ch.id) = true := by
            intro hxe
            have : x ∈ rest.filter (fun c => c.id == ch.id) := by
              rw [List.mem_filter]
              exact ⟨hx, hxe⟩
            rw [hrest] at this
            cases this
          simp only [Bool.and_eq_true]
          exact fun hh => hxid hh.1
        rw [List.countP_cons, hrest0, hc]
        simp [hok]
      · rw [List.filter_cons, if_neg hi] at hfilt
        rw [List.countP_cons, ih hfilt]
        simp only [Bool.and_eq_true]
        have : ¬((c.id == ch.id) = true ∧ (!c.broken) = true) := fun hh => hi hh.1
        rw [if_neg this]

/-- If the only channel carrying a given id is broken, no delivery lands in
that slot. -/
theorem countP_of_filter_broken (cs : List Channel) (b : Channel)
    (hfilt : cs.filter (fun c => c.id == b.id) = [b])
    (hbr : b.broken = true) :
    cs.countP (fun c => c.id == b.id && !c.broken) = 0 := by
  rw [List.countP_eq_zero]
  intro x hx
  simp only [Bool.and_eq_true]
  rintro ⟨hid, hok⟩
  have : x ∈ cs.filter (fun c => c.id == b.id) := by
    rw [List.mem_filter]
    exact ⟨hx, hid⟩
  rw [hfilt] at this
  have hxb : x = b := by simpa using this
  rw [hxb, hbr] at hok
  cases hok

/-- In a registry with pairwise-distinct ids, the channels carrying a
member's id are exactly that member. -/
theorem filter_id_of_nodup (cs : List Channel) (ch : Channel)
    (hmem : ch ∈ cs) (hnd : (cs.map Channel.id).Nodup) :
    cs.filter (fun c => c.id == ch.id) = [ch] := by
  induction cs with
  | nil => cases hmem
  | cons c rest ih =>
      rw [List.map_cons, List.nodup_cons] at hnd
      rcases List.mem_cons.mp hmem with he | hm
      · subst he
        rw [List.filter_cons, if_pos (by simp)]
        have hrest : rest.filter (fun c => c.id == ch.id) = [] := by
          rw [List.filter_eq_nil_iff]
          intro x hx
          simp only [beq_iff_eq]
          intro hxe
          exact hnd.1 (hxe ▸ List.mem_map_of_mem Channel.id hx)
        rw [hrest]
      · have hne : ¬(c.id == ch.id) = true := by
          simp only [beq_iff_eq]
          intro he
          exact hnd.1 (he ▸ List.mem_map_of_mem Channel.id hm)
        rw [List.filter_cons, if_neg hne]
        exact ih hm hnd.2

/-! ### C7 -/

/-- C7: a broadcast over a registry holding a broken channel still delivers
the identical payload (the valid view, serialized once) to every other,
healthy subscriber; the broken channel's failed write is absorbed (its log
is simply unchanged), `broadcastUpdate` returns normally, and the registry
itself is untouched, so at most the close-event later removes the broken
channel. Registries hold distinct connection handles, so ids are assumed
pairwise distinct. -/
theorem broadcast_isolates_failure (s : SysState) (b ch : Channel)
    (hb : b ∈ s.clients) (hbBroken : b.broken = true)
    (hch : ch ∈ s.clients) (hchOk : ch.broken = false)
    (hids : (s.clients.map Channel.id).Nodup) :
    (broadcastUpdate s).logs ch.id
        = s.logs ch.id ++ [getCurrentProducts s.products] ∧
    (broadcastUpdate s).logs b.id = s.logs b.id ∧
    (broadcastUpdate s).clients = s.clients := by
  refine ⟨?_, ?_, rfl⟩
  · rw [broadcastUpdate]
    dsimp only
    rw [foldWrite_apply,
      countP_of_filter_single s.clients ch (filter_id_of_nodup s.clients ch hch hids) hchOk]
    simp
  · rw [broadcastUpdate]
    dsimp only
    rw [foldWrite_apply,
      countP_of_filter_broken s.clients b (filter_id_of_nodup s.clients b hb hids) hbBroken]
    simp

/-- C7 witness: a registry of one broken and one healthy channel. -/
theorem broadcast_isolates_failure_witness :
    (broadcastUpdate
        ⟨[("a", ⟨10, 3, "f"⟩)], [⟨1, true⟩, ⟨2, false⟩], [], fun _ => []⟩).logs 2
      = [] ++ [getCurrentProducts [("a", ⟨10, 3, "f"⟩)]] :=
  (broadcast_isolates_failure
    ⟨[("a", ⟨10, 3, "f"⟩)], [⟨1, true⟩, ⟨2, false⟩], [], fun _ => []⟩
    ⟨1, true⟩ ⟨2, false⟩ (by decide) rfl (by decide) rfl (by decide)).1

/-! ### Trace lemmas for C8 -/

theorem runFrom_cons (t : SysState) (e : Event) (es : List Event) :
    runFrom t (e :: es) = runFrom (step t e) es := rfl

theorem run_append_cons (pre : List Event) (e : Event) (post : List Event) :
    run (pre ++ e :: post) = runFrom (step (run pre) e) post := by
  simp [run, runFrom, List.foldl_append]

/-- Effect of one broadcast on a healthy channel that is registered exactly
once: its log and the global history gain the same payload. -/
theorem broadcastUpdate_tracks (t : SysState) (ch : Channel)
    (hok : ch.broken = false)
    (hfilt : t.clients.filter (fun c => c.id == ch.id) = [ch]) :
    (broadcastUpdate t).history
        = t.history ++ [getCurrentProducts t.products] ∧
    (broadcastUpdate t).logs ch.id
        = t.logs ch.id ++ [getCurrentProducts t.products] ∧
    (broadcastUpdate t).clients = t.clients := by
  refine ⟨rfl, ?_, rfl⟩
  rw [broadcastUpdate]
  dsimp only
  rw [foldWrite_apply, countP_of_filter_single t.clients ch hfilt hok]
  simp

/-- Generic filter exchange used for the disconnect case. -/
theorem filter_filter_comm {α : Type} (p q : α → Bool) (l : List α) :
    (l.filter p).filter q = (l.filter q).filter p := by
  induction l with
  | nil => rfl
  | cons a l ih =>
      by_cases hp : p a <;> by_cases hq : q a <;>
        simp [List.filter_cons, hp, hq, ih]

/-- Core induction for C8: from any state in which the channel is registered
exactly once (by id) and healthy, running any stretch of events that neither
disconnects it nor connects another channel with its id appends to its log
exactly the payloads broadcast during that stretch. -/
theorem runFrom_log_tracks (post : List Event) (t : SysState) (ch : Channel)
    (hok : ch.broken = false)
    (hfilt : t.clients.filter (fun c => c.id == ch.id) = [ch])
    (hconn : ∀ c, Event.connect c ∈ post → c.id ≠ ch.id)
    (hdisc : Event.disconnect ch ∉ post) :
    ∃ ext, (runFrom t post).history = t.history ++ ext ∧
      (runFrom t post).logs ch.id = t.logs ch.id ++ ext ∧
      (runFrom t post).clients.filter (fun c => c.id == ch.id) = [ch] := by
  induction post generalizing t with
  | nil => exact ⟨[], by simp [runFrom], by simp [runFrom], hfilt⟩
  | cons e es ih =>
      have hconn' : ∀ c, Event.connect c ∈ es → c.id ≠ ch.id :=
        fun c hc => hconn c (List.mem_cons_of_mem _ hc)
      have hdisc' : Event.disconnect ch ∉ es :=
        fun hc => hdisc (List.mem_cons_of_mem _ hc)
      have hstep : ∃ d, (step t e).history = t.history ++ d ∧
          (step t e).logs ch.id = t.logs ch.id ++ d ∧
          (step t e).clients.filter (fun c => c.id == ch.id) = [ch] := by
        cases e with
        | connect c =>
            have hne : c.id ≠ ch.id := hconn c (List.mem_cons_self _ _)
            refine ⟨[], (List.append_nil _).symm, ?_, ?_⟩
            · show writeTo t.logs c (getCurrentProducts t.products) ch.id
                  = t.logs ch.id ++ []
              rw [writeTo]
              have hne' : ¬ch.id = c.id := fun h => hne h.symm
              by_cases hb : c.broken
              · simp [hb]
              · simp [hb, hne']
            · show (t.clients ++ [c]).filter (fun x => x.id == ch.id) = [ch]
              rw [List.filter_append, hfilt]
              have : [c].filter (fun x => x.id == ch.id) = [] := by
                simp [List.filter_cons, hne]
              rw [this, List.append_nil]
        | disconnect c =>
            have hne : c ≠ ch := by
              intro he
              exact hdisc (he ▸ List.mem_cons_self _ _)
            refine ⟨[], (List.append_nil _).symm, (List.append_nil _).symm, ?_⟩
            show (unregister t.clients c).filter (fun x => x.id == ch.id) = [ch]
            rw [unregister, filter_filter_comm, hfilt]
            have hne' : ¬ch = c := fun h => hne h.symm
            simp [List.filter_cons, hne']
        | post r =>
            rcases hres : postProduct t.products r with ⟨out, c2, br⟩
            cases br
            · refine ⟨[], ?_, ?_, ?_⟩
              · simp only [step, hres, Bool.false_eq_true, if_false, List.append_nil]
              · simp only [step, hres, Bool.false_eq_true, if_false, List.append_nil]
              · simp only [step, hres, Bool.false_eq_true, if_false]
                exact hfilt
            · have hb := broadcastUpdate_tracks
                { t with products := c2 } ch hok hfilt
              refine ⟨[getCurrentProducts c2], ?_, ?_, ?_⟩
              · simpa only [step, hres, if_true] using hb.1
              · simpa only [step, hres, if_true] using hb.2.1
              · simp only [step, hres, if_true]
                rw [hb.2.2]
                exact hfilt
        | remove n =>
            rcases hres : deleteProduct t.products n with ⟨out, c2, br⟩
            cases br
            · refine ⟨[], ?_, ?_, ?_⟩
              · simp only [step, hres, Bool.false_eq_true, if_false, List.append_nil]
              · simp only [step, hres, Bool.false_eq_true, if_false, List.append_nil]
              · simp only [step, hres, Bool.false_eq_true, if_false]
                exact hfilt
            · have hb := broadcastUpdate_tracks
                { t with products := c2 } ch hok hfilt
              refine ⟨[getCurrentProducts c2], ?_, ?_, ?_⟩
              · simpa only [step, hres, if_true] using hb.1
              · simpa only [step, hres, if_true] using hb.2.1
              · simp only [step, hres, if_true]
                rw [hb.2.2]
                exact hfilt
      obtain ⟨d, hd1, hd2, hd3⟩ := hstep
      obtain ⟨ext, he1, he2, he3⟩ := ih (step t e) hd3 hconn' hdisc'
      refine ⟨d ++ ext, ?_, ?_, he3⟩
      · rw [runFrom_cons, he1, hd1, List.append_assoc]
      · rw [runFrom_cons, he2, hd2, List.append_assoc]

/-! ### C8 -/

/-- C8: a healthy subscriber that connects after the first N broadcasts have
happened (and whose connection handle is fresh) is immediately sent the
current valid view exactly once, and from then on — as long as it stays
connected and its handle stays unique — its delivery log is exactly that
initial sync followed by every broadcast from N+1 onward; the N missed
broadcasts are never replayed. -/
theorem late_subscriber_receives (pre post : List Event) (ch : Channel)
    (hok : ch.broken = false)
    (hfresh : ∀ c ∈ (run pre).clients, c.id ≠ ch.id)
    (hlog : (run pre).logs ch.id = [])
    (hconn : ∀ c, Event.connect c ∈ post → c.id ≠ ch.id)
    (hdisc : Event.disconnect ch ∉ post) :
    (run (pre ++ Event.connect ch :: post)).logs ch.id
      = getCurrentProducts (run pre).products
        :: ((run (pre ++ Event.connect ch :: post)).history.drop
              (run pre).history.length) := by
  rw [run_append_cons]
  have hfilt1 : (step (run pre) (.connect ch)).clients.filter
      (fun x => x.id == ch.id) = [ch] := by
    show ((run pre).clients ++ [ch]).filter (fun x => x.id == ch.id) = [ch]
    rw [List.filter_append]
    have h0 : (run pre).clients.filter (fun x => x.id == ch.id) = [] := by
      rw [List.filter_eq_nil_iff]
      intro x hx
      simp only [beq_iff_eq]
      exact hfresh x hx
    rw [h0]
    simp
  have hlog1 : (step (run pre) (.connect ch)).logs ch.id
      = [getCurrentProducts (run pre).products] := by
    show writeTo (run pre).logs ch (getCurrentProducts (run pre).products) ch.id
        = [getCurrentProducts (run pre).products]
    rw [writeTo, hok]
    simp [hlog]
  have hhist1 : (step (run pre) (.connect ch)).history = (run pre).history := rfl
  obtain ⟨ext, he1, he2, _⟩ :=
    runFrom_log_tracks post (step (run pre) (.connect ch)) ch hok hfilt1 hconn hdisc
  rw [he2, hlog1, he1, hhist1, List.drop_left]
  rfl

/-- C8 witness: one broadcast before the subscriber connects (missed, not
replayed), one after (delivered after the initial sync). -/
theorem late_subscriber_receives_witness :
    (run [Event.post ⟨some "a", some 10, some 3, some "f"⟩,
          Event.connect ⟨7, false⟩,
          Event.post ⟨some "b", some 9, some 4, some "g"⟩]).logs 7
      = getCurrentProducts
          (run [Event.post ⟨some "a", some 10, some 3, some "f"⟩]).products
        :: ((run [Event.post ⟨some "a", some 10, some 3, some "f"⟩,
             Event.connect ⟨7, false⟩,
             Event.post ⟨some "b", some 9, some 4, some "g"⟩]).history.drop
              (run [Event.post ⟨some "a", some 10, some 3, some "f"⟩]).history.length) :=
  late_subscriber_receives
    [Event.post ⟨some "a", some 10, some 3, some "f"⟩]
    [Event.post ⟨some "b", some 9, some 4, some "g"⟩]
    ⟨7, false⟩ rfl (by decide) rfl
    (by intro c hc; simp at hc) (by decide)

end Backend
